import Mathlib

/-!
Verification of the threaded-comment subsystem of a blogging REST API
(Django/DRF project, app `posts`).

The embedding mirrors `posts/models.py`, `posts/serializers.py`,
`posts/permissions.py` and `posts/views.py`:

* `Blog.Post`, `Blog.Comment`, `Blog.Category`, `Blog.Tag`, `Blog.User`
  embed the Django models; foreign keys are stored as numeric ids, the
  many-to-many `Post.tag` as a list of tag ids, `auto_now_add` /
  `auto_now` timestamps as naturals drawn from a store clock.
* `Blog.Store` is the relational store: lists of rows in insertion
  order (auto-increment primary keys via `nextId`).
* `Blog.serializeComment` embeds `CommentSerializer.to_representation`
  with the `RecursiveField` helper: `replies` is computed by fetching
  all comments whose `parent` is the current comment and recursively
  serializing each one.  The Python recursion is unbounded; here it is
  written with explicit fuel and we prove the result is independent of
  the fuel once the fuel reaches the store size (= termination on
  acyclic stores).
* `Blog.has_permission` / `Blog.has_object_permission` embed
  `IsAuthorOrReadOnly`; the endpoint functions embed the viewsets.
-/

namespace Blog

/-- Embeds `django.contrib.auth.models.User` as exposed by `UserSerializer`. -/
structure User where
  id : Nat
  username : String
deriving Repr, DecidableEq

/-- Embeds `posts.models.Category`. -/
structure Category where
  id : Nat
  name : String
deriving Repr, DecidableEq

/-- Embeds `posts.models.Tag`. -/
structure Tag where
  id : Nat
  name : String
deriving Repr, DecidableEq

/-- Embeds `posts.models.Post`: `category` is a nullable foreign key
(`on_delete=SET_NULL`), `tag` a many-to-many, `author` a foreign key. -/
structure Post where
  id : Nat
  title : String
  content : String
  category : Option Nat
  tag : List Nat
  created_at : Nat
  updated_at : Nat
  author : Nat
deriving Repr, DecidableEq

/-- Embeds `posts.models.Comment`: `post` and `author` are required
foreign keys (`on_delete=CASCADE`), `parent` a nullable self-reference
(`on_delete=CASCADE`, `related_name`=replies). -/
structure Comment where
  id : Nat
  post : Nat
  content : String
  author : Nat
  parent : Option Nat
  created_at : Nat
  updated_at : Nat
deriving Repr, DecidableEq

/-- The relational store.  Rows are kept in insertion order (Django's
auto-increment primary key order); `nextId` is the next primary key,
`clock` the timestamp source for `auto_now_add` / `auto_now`. -/
structure Store where
  users : List User
  categories : List Category
  tags : List Tag
  posts : List Post
  comments : List Comment
  nextId : Nat
  clock : Nat
deriving Repr

/-- Output shape of `CommentSerializer`: fields
`('id', 'post', 'content', 'author', 'parent', 'created_at',
'updated_at', 'replies')`; `post` is the post's title
(`SlugRelatedField`), `author` the username (`StringRelatedField`),
`replies` the recursively serialized children (`RecursiveField`). -/
inductive CommentNode : Type where
  | node (id : Nat) (post : String) (content : String) (author : String)
      (parent : Option Nat) (created_at : Nat) (updated_at : Nat)
      (replies : List CommentNode) : CommentNode
deriving Repr

/-- Root id of a serialized comment node. -/
def CommentNode.nid : CommentNode → Nat
  | .node i _ _ _ _ _ _ _ => i

/-- `replies` field of a serialized comment node. -/
def CommentNode.replies : CommentNode → List CommentNode
  | .node _ _ _ _ _ _ _ r => r

mutual
/-- Number of nodes in the tree whose `id` field equals `i`. -/
def CommentNode.countId (i : Nat) : CommentNode → Nat
  | .node j _ _ _ _ _ _ reps => (if j = i then 1 else 0) + countIdList i reps
/-- Sum of `CommentNode.countId i` over a list of nodes. -/
def countIdList (i : Nat) : List CommentNode → Nat
  | [] => 0
  | n :: ns => CommentNode.countId i n + countIdList i ns
end

mutual
/-- Nesting depth of a serialized comment tree (a leaf has depth 1). -/
def CommentNode.depth : CommentNode → Nat
  | .node _ _ _ _ _ _ _ reps => 1 + depthList reps
/-- Maximum of `CommentNode.depth` over a list of nodes. -/
def depthList : List CommentNode → Nat
  | [] => 0
  | n :: ns => max (CommentNode.depth n) (depthList ns)
end

/-- `SlugRelatedField(slug_field='title')` read direction: the title of
the comment's post. -/
def postTitle (s : Store) (pid : Nat) : String :=
  match s.posts.find? (fun p => p.id == pid) with
  | some p => p.title
  | none => ""

/-- `StringRelatedField` read direction: the username of the author. -/
def username (s : Store) (uid : Nat) : String :=
  match s.users.find? (fun u => u.id == uid) with
  | some u => u.username
  | none => ""

/-- The reverse relation `comment.replies`: all comments whose `parent`
foreign key is `cid`, in store (insertion) order. -/
def childrenOf (s : Store) (cid : Nat) : List Comment :=
  s.comments.filter (fun d => decide (d.parent = some cid))

/-- `CommentSerializer.to_representation` together with
`RecursiveField.to_representation`: serialize the comment's scalar and
slug fields and recursively serialize every child into `replies`.  The
Python recursion carries no fuel; the explicit fuel is the embedding's
termination device and is proved irrelevant (`serializeComment_stable`)
once it reaches the number of stored comments. -/
def serializeComment (s : Store) : Nat → Comment → CommentNode
  | 0, c =>
      .node c.id (postTitle s c.post) c.content (username s c.author)
        c.parent c.created_at c.updated_at []
  | fuel + 1, c =>
      .node c.id (postTitle s c.post) c.content (username s c.author)
        c.parent c.created_at c.updated_at
        ((childrenOf s c.id).map (serializeComment s fuel))

/-- The serializer as the code runs it: enough fuel to exhaust any
acyclic store. -/
def serialize (s : Store) (c : Comment) : CommentNode :=
  serializeComment s s.comments.length c

/-- The comment table as produced by the creation contract: primary
keys strictly increase in insertion order, and every parent was created
strictly before its child (`parent` id `<` own id).  This is the
spec's "acyclic by construction". -/
def wfComments : List Comment → Bool
  | [] => true
  | c :: rest =>
      rest.all (fun d => decide (c.id < d.id))
      && (match c.parent with
          | none => true
          | some p => decide (p < c.id))
      && wfComments rest

/-- Number of stored comments with id strictly above `i`: the measure
that shrinks when the serializer descends to a child. -/
def m (s : Store) (i : Nat) : Nat :=
  (s.comments.filter (fun d => decide (i < d.id))).length

theorem length_filter_mono {α : Type} (p q : α → Bool) :
    ∀ (l : List α), (∀ a ∈ l, p a = true → q a = true) →
      (l.filter p).length ≤ (l.filter q).length := by
  intro l
  induction l with
  | nil => intro _; simp
  | cons a tl ih =>
    intro h
    have ih' := ih (fun x hx hp => h x (List.mem_cons_of_mem a hx) hp)
    cases hpa : p a with
    | false =>
      cases hqa : q a with
      | false => simpa [List.filter_cons, hpa, hqa] using ih'
      | true => simp [List.filter_cons, hpa, hqa]; omega
    | true =>
      have hqa := h a (List.mem_cons_self a tl) hpa
      simp [List.filter_cons, hpa, hqa]
      omega

theorem length_filter_lt {α : Type} (p q : α → Bool) (x : α) :
    ∀ (l : List α), (∀ a ∈ l, p a = true → q a = true) →
      x ∈ l → p x = false → q x = true →
      (l.filter p).length < (l.filter q).length := by
  intro l
  induction l with
  | nil => intro _ hx; cases hx
  | cons a tl ih =>
    intro h hx hpx hqx
    have hmono := length_filter_mono p q tl
      (fun y hy hp => h y (List.mem_cons_of_mem a hy) hp)
    rcases List.mem_cons.mp hx with rfl | hx'
    · simp [List.filter_cons, hpx, hqx]
      omega
    · have ih' := ih (fun y hy hp => h y (List.mem_cons_of_mem a hy) hp) hx' hpx hqx
      cases hpa : p a with
      | false =>
        cases hqa : q a with
        | false => simpa [List.filter_cons, hpa, hqa] using ih'
        | true => simp [List.filter_cons, hpa, hqa]; omega
      | true =>
        have hqa := h a (List.mem_cons_self a tl) hpa
        simp [List.filter_cons, hpa, hqa]
        omega

theorem wf_parent_lt : ∀ (l : List Comment), wfComments l = true →
    ∀ d ∈ l, ∀ i, d.parent = some i → i < d.id := by
  intro l
  induction l with
  | nil => intro _ d hd; cases hd
  | cons a tl ih =>
    intro hwf d hd i hp
    simp only [wfComments, Bool.and_eq_true] at hwf
    obtain ⟨⟨_, hpar⟩, htl⟩ := hwf
    rcases List.mem_cons.mp hd with rfl | hd'
    · rw [hp] at hpar
      simpa using hpar
    · exact ih htl d hd' i hp

theorem wf_pairwise : ∀ (l : List Comment), wfComments l = true →
    List.Pairwise (fun a b => a.id < b.id) l := by
  intro l
  induction l with
  | nil => intro _; exact List.Pairwise.nil
  | cons a tl ih =>
    intro hwf
    simp only [wfComments, Bool.and_eq_true] at hwf
    obtain ⟨⟨hall, _⟩, htl⟩ := hwf
    refine List.Pairwise.cons ?_ (ih htl)
    intro b hb
    have := List.all_eq_true.mp hall b hb
    simpa using this

theorem pairwise_lt_id_inj : ∀ (l : List Comment),
    List.Pairwise (fun a b => a.id < b.id) l →
    ∀ a ∈ l, ∀ b ∈ l, a.id = b.id → a = b := by
  intro l
  induction l with
  | nil => intro _ a ha; cases ha
  | cons x tl ih =>
    intro hpw a ha b hb hab
    obtain ⟨hx, htl⟩ := List.pairwise_cons.mp hpw
    rcases List.mem_cons.mp ha with rfl | ha'
    · rcases List.mem_cons.mp hb with rfl | hb'
      · rfl
      · have := hx b hb'; omega
    · rcases List.mem_cons.mp hb with rfl | hb'
      · have := hx a ha'; omega
      · exact ih htl a ha' b hb' hab

theorem wf_id_inj (s : Store) (hwf : wfComments s.comments = true) :
    ∀ a ∈ s.comments, ∀ b ∈ s.comments, a.id = b.id → a = b :=
  pairwise_lt_id_inj s.comments (wf_pairwise s.comments hwf)

theorem m_child_lt (s : Store) (hwf : wfComments s.comments = true)
    (d : Comment) (hd : d ∈ s.comments) (i : Nat) (hp : d.parent = some i) :
    m s d.id < m s i := by
  have hid : i < d.id := wf_parent_lt s.comments hwf d hd i hp
  refine length_filter_lt _ _ d s.comments ?_ hd ?_ ?_
  · intro a _ ha
    have : d.id < a.id := of_decide_eq_true ha
    exact decide_eq_true (by omega)
  · simp
  · exact decide_eq_true hid

theorem m_lt_len (s : Store) (c : Comment) (hc : c ∈ s.comments) :
    m s c.id < s.comments.length := by
  have h := length_filter_lt (fun d => decide (c.id < d.id)) (fun _ => true) c
    s.comments (fun a _ _ => rfl) hc (by simp) rfl
  simpa [m, List.filter_true] using h

theorem serializeComment_stable (s : Store) (hwf : wfComments s.comments = true) :
    ∀ (f₁ : Nat) (c : Comment), c ∈ s.comments → ∀ (f₂ : Nat),
      m s c.id < f₁ → m s c.id < f₂ →
      serializeComment s f₁ c = serializeComment s f₂ c := by
  intro f₁
  induction f₁ with
  | zero => intro c _ f₂ h₁ _; omega
  | succ f ih =>
    intro c hc f₂ h₁ h₂
    cases f₂ with
    | zero => omega
    | succ f' =>
      simp only [serializeComment, CommentNode.node.injEq, true_and]
      apply List.map_congr_left
      intro d hd
      have hdm : d ∈ s.comments := (List.mem_filter.mp hd).1
      have hdp : d.parent = some c.id := of_decide_eq_true (List.mem_filter.mp hd).2
      have hlt : m s d.id < m s c.id := m_child_lt s hwf d hdm c.id hdp
      exact ih d hdm f' (by omega) (by omega)

theorem serialize_unfold (s : Store) (hwf : wfComments s.comments = true)
    (c : Comment) (hc : c ∈ s.comments) :
    serialize s c =
      CommentNode.node c.id (postTitle s c.post) c.content (username s c.author)
        c.parent c.created_at c.updated_at
        ((childrenOf s c.id).map (serialize s)) := by
  have hm : m s c.id < s.comments.length := m_lt_len s c hc
  obtain ⟨k, hn⟩ : ∃ k, s.comments.length = k + 1 := by
    cases hl : s.comments.length with
    | zero =>
      exfalso
      rw [List.length_eq_zero] at hl
      rw [hl] at hc
      cases hc
    | succ k => exact ⟨k, rfl⟩
  show serializeComment s s.comments.length c = _
  rw [hn]
  simp only [serializeComment, CommentNode.node.injEq, true_and]
  apply List.map_congr_left
  intro d hd
  have hdm : d ∈ s.comments := (List.mem_filter.mp hd).1
  have hdp : d.parent = some c.id := of_decide_eq_true (List.mem_filter.mp hd).2
  have hdc : m s d.id < m s c.id := m_child_lt s hwf d hdm c.id hdp
  show serializeComment s k d = serialize s d
  unfold serialize
  exact serializeComment_stable s hwf k d hdm s.comments.length
    (by omega) (m_lt_len s d hdm)

theorem countIdList_eq_zero (i : Nat) : ∀ (ns : List CommentNode),
    (∀ n ∈ ns, CommentNode.countId i n = 0) → countIdList i ns = 0 := by
  intro ns
  induction ns with
  | nil => intro _; rfl
  | cons n tl ih =>
    intro h
    simp only [countIdList]
    rw [h n (List.mem_cons_self n tl), ih (fun x hx => h x (List.mem_cons_of_mem n hx))]

theorem countIdList_map_one (i : Nat) (g : Comment → CommentNode) :
    ∀ (xs : List Comment) (x : Comment),
      List.Pairwise (fun a b => a.id < b.id) xs → x ∈ xs →
      CommentNode.countId i (g x) = 1 →
      (∀ y ∈ xs, y ≠ x → CommentNode.countId i (g y) = 0) →
      countIdList i (xs.map g) = 1 := by
  intro xs
  induction xs with
  | nil => intro x _ hx; cases hx
  | cons a tl ih =>
    intro x hpw hx hone hzero
    obtain ⟨ha, htl⟩ := List.pairwise_cons.mp hpw
    rcases List.mem_cons.mp hx with rfl | hx'
    · simp only [List.map_cons, countIdList]
      have hz : countIdList i (tl.map g) = 0 := by
        apply countIdList_eq_zero
        intro n hn
        obtain ⟨y, hy, rfl⟩ := List.mem_map.mp hn
        have hne : y ≠ x := by
          intro he
          have h2 := ha y hy
          rw [he] at h2
          omega
        exact hzero y (List.mem_cons_of_mem x hy) hne
      rw [hone, hz]
    · simp only [List.map_cons, countIdList]
      have hane : a ≠ x := by
        intro he
        have h2 := ha x hx'
        rw [he] at h2
        omega
      rw [hzero a (List.mem_cons_self a tl) hane,
        ih x htl hx' hone (fun y hy hne => hzero y (List.mem_cons_of_mem a hy) hne)]

theorem count_lt_zero (s : Store) (hwf : wfComments s.comments = true) :
    ∀ (fuel : Nat) (e : Comment), e ∈ s.comments → ∀ i, i < e.id →
      CommentNode.countId i (serializeComment s fuel e) = 0 := by
  intro fuel
  induction fuel with
  | zero =>
    intro e _ i hi
    have : e.id ≠ i := by omega
    simp [serializeComment, CommentNode.countId, countIdList, this]
  | succ f ih =>
    intro e he i hi
    have hne : e.id ≠ i := by omega
    have hz : ∀ n ∈ List.map (serializeComment s f) (childrenOf s e.id),
        CommentNode.countId i n = 0 := by
      intro n hn
      obtain ⟨d, hd, rfl⟩ := List.mem_map.mp hn
      have hdm : d ∈ s.comments := (List.mem_filter.mp hd).1
      have hdp : d.parent = some e.id := of_decide_eq_true (List.mem_filter.mp hd).2
      have : e.id < d.id := wf_parent_lt s.comments hwf d hdm e.id hdp
      exact ih d hdm i (by omega)
    simp only [serializeComment, CommentNode.countId]
    rw [countIdList_eq_zero i _ hz]
    simp [hne]

theorem count_self_one (s : Store) (hwf : wfComments s.comments = true) :
    ∀ (fuel : Nat) (e : Comment), e ∈ s.comments →
      CommentNode.countId e.id (serializeComment s fuel e) = 1 := by
  intro fuel e he
  have hz : ∀ fl : Nat, ∀ n ∈ List.map (serializeComment s fl) (childrenOf s e.id),
      CommentNode.countId e.id n = 0 := by
    intro fl n hn
    obtain ⟨d, hd, rfl⟩ := List.mem_map.mp hn
    have hdm : d ∈ s.comments := (List.mem_filter.mp hd).1
    have hdp : d.parent = some e.id := of_decide_eq_true (List.mem_filter.mp hd).2
    have hlt : e.id < d.id := wf_parent_lt s.comments hwf d hdm e.id hdp
    exact count_lt_zero s hwf fl d hdm e.id hlt
  cases fuel with
  | zero => simp [serializeComment, CommentNode.countId, countIdList]
  | succ f =>
    simp only [serializeComment, CommentNode.countId]
    rw [countIdList_eq_zero e.id _ (hz f)]
    simp

theorem count_nondesc_zero (s : Store) (hwf : wfComments s.comments = true) :
    ∀ (fuel : Nat) (e : Comment), e ∈ s.comments →
      ∀ (d : Comment), d ∈ s.comments → d ≠ e →
        ∀ p, d.parent = some p → p < e.id →
          CommentNode.countId d.id (serializeComment s fuel e) = 0 := by
  intro fuel
  induction fuel with
  | zero =>
    intro e he d hd hne p hp hpe
    have hroot : e.id ≠ d.id := fun h => hne (pairwise_lt_id_inj s.comments
      (wf_pairwise s.comments hwf) d hd e he h.symm)
    simp [serializeComment, CommentNode.countId, countIdList, hroot]
  | succ f ih =>
    intro e he d hd hne p hp hpe
    have hroot : e.id ≠ d.id := fun h => hne (pairwise_lt_id_inj s.comments
      (wf_pairwise s.comments hwf) d hd e he h.symm)
    have hz : ∀ n ∈ List.map (serializeComment s f) (childrenOf s e.id),
        CommentNode.countId d.id n = 0 := by
      intro n hn
      obtain ⟨x, hx, rfl⟩ := List.mem_map.mp hn
      have hxm : x ∈ s.comments := (List.mem_filter.mp hx).1
      have hxp : x.parent = some e.id := of_decide_eq_true (List.mem_filter.mp hx).2
      have hex : e.id < x.id := wf_parent_lt s.comments hwf x hxm e.id hxp
      have hdx : d ≠ x := by
        intro he'
        rw [he'] at hp
        rw [hxp] at hp
        injection hp with h2
        omega
      exact ih x hxm d hd hdx p hp (by omega)
    simp only [serializeComment, CommentNode.countId]
    rw [countIdList_eq_zero d.id _ hz]
    simp [hroot]

theorem depthList_mem_le : ∀ (ns : List CommentNode), ∀ n ∈ ns,
    CommentNode.depth n ≤ depthList ns := by
  intro ns
  induction ns with
  | nil => intro n hn; cases hn
  | cons a tl ih =>
    intro n hn
    rcases List.mem_cons.mp hn with rfl | hn'
    · simp only [depthList]
      exact Nat.le_max_left _ _
    · simp only [depthList]
      exact le_trans (ih n hn') (Nat.le_max_right _ _)

/-- C1: for every comment `C` of a store produced by the creation
contract, the recursive serialization of `C` has `replies` equal to the
serializations (by the same serializer) of exactly the comments whose
`parent` is `C`, and any such child `d` occurs exactly once in `C`'s
whole serialized subtree (its id appears on exactly one node). -/
theorem serialize_replies_exact (s : Store) (hwf : wfComments s.comments = true)
    (c d : Comment) (hc : c ∈ s.comments) (hd : d ∈ s.comments)
    (hp : d.parent = some c.id) :
    (serialize s c).replies = (childrenOf s c.id).map (serialize s)
    ∧ CommentNode.countId d.id (serialize s c) = 1 := by
  constructor
  · rw [serialize_unfold s hwf c hc]
    rfl
  · rw [serialize_unfold s hwf c hc]
    have hcd : c.id < d.id := wf_parent_lt s.comments hwf d hd c.id hp
    have hroot : c.id ≠ d.id := by omega
    have hpw : List.Pairwise (fun a b => a.id < b.id) (childrenOf s c.id) :=
      List.Pairwise.sublist (List.filter_sublist s.comments) (wf_pairwise s.comments hwf)
    have hmem : d ∈ childrenOf s c.id :=
      List.mem_filter.mpr ⟨hd, decide_eq_true hp⟩
    have hone : CommentNode.countId d.id (serialize s d) = 1 :=
      count_self_one s hwf s.comments.length d hd
    have hzero : ∀ y ∈ childrenOf s c.id, y ≠ d →
        CommentNode.countId d.id (serialize s y) = 0 := by
      intro y hy hne
      have hym : y ∈ s.comments := (List.mem_filter.mp hy).1
      have hyp : y.parent = some c.id := of_decide_eq_true (List.mem_filter.mp hy).2
      have hcy : c.id < y.id := wf_parent_lt s.comments hwf y hym c.id hyp
      exact count_nondesc_zero s hwf s.comments.length y hym d hd
        (fun h => hne h.symm) c.id hp hcy
    simp only [CommentNode.countId]
    rw [countIdList_map_one d.id (serialize s) (childrenOf s c.id) d hpw hmem hone hzero]
    simp [hroot]

/-- C2: on any store whose comment table satisfies the creation
contract (each parent created strictly before its child, hence
acyclic), the recursive serializer terminates: its value is already
reached at fuel = number of stored comments and no further fuel changes
it; moreover the full nesting depth is reproduced — the serialization
of a comment is strictly deeper than that of each of its replies, so an
`n`-level chain serializes to depth `n` (witness shows 3 levels). -/
theorem serialize_terminates (s : Store) (hwf : wfComments s.comments = true)
    (c : Comment) (hc : c ∈ s.comments)
    (fuel : Nat) (hfuel : s.comments.length ≤ fuel) :
    serializeComment s fuel c = serialize s c
    ∧ ∀ d ∈ s.comments, d.parent = some c.id →
        CommentNode.depth (serialize s d) + 1 ≤ CommentNode.depth (serialize s c) := by
  constructor
  · have hm : m s c.id < s.comments.length := m_lt_len s c hc
    exact serializeComment_stable s hwf fuel c hc s.comments.length (by omega) hm
  · intro d hd hp
    rw [serialize_unfold s hwf c hc]
    simp only [CommentNode.depth]
    have hmem : serialize s d ∈ (childrenOf s c.id).map (serialize s) :=
      List.mem_map.mpr ⟨d, List.mem_filter.mpr ⟨hd, decide_eq_true hp⟩, rfl⟩
    have := depthList_mem_le ((childrenOf s c.id).map (serialize s)) (serialize s d) hmem
    omega

/-- A user, a post and a three-level comment chain
(root `exC1` ← reply `exC2` ← reply-to-reply `exC3`), used as concrete
input for the witnesses. -/
def exUser : User := ⟨1, "alice"⟩

def exPost : Post := ⟨1, "Intro", "hello world", none, [], 0, 0, 1⟩

def exC1 : Comment := ⟨1, 1, "root comment", 1, none, 1, 1⟩

def exC2 : Comment := ⟨2, 1, "first reply", 1, some 1, 2, 2⟩

def exC3 : Comment := ⟨3, 1, "reply to reply", 1, some 2, 3, 3⟩

def exStore : Store := ⟨[exUser], [], [], [exPost], [exC1, exC2, exC3], 4, 4⟩

theorem serialize_replies_exact_witness :
    (serialize exStore exC1).replies = (childrenOf exStore exC1.id).map (serialize exStore)
    ∧ CommentNode.countId exC2.id (serialize exStore exC1) = 1 :=
  serialize_replies_exact exStore (by decide) exC1 exC2 (by decide) (by decide) (by decide)

theorem serialize_terminates_witness :
    (serializeComment exStore 10 exC1 = serialize exStore exC1
      ∧ ∀ d ∈ exStore.comments, d.parent = some exC1.id →
          CommentNode.depth (serialize exStore d) + 1 ≤ CommentNode.depth (serialize exStore exC1))
    ∧ CommentNode.depth (serialize exStore exC1) = 3 :=
  ⟨serialize_terminates exStore (by decide) exC1 (by decide) 10 (by decide), by decide⟩

/-- Client-writable fields of `CommentSerializer`: `post` is a title
string (`SlugRelatedField`), `content` the comment body (required,
non-blank `CharField`), `parent` an optional primary key
(`PrimaryKeyRelatedField`, `allow_null`, not required).  The `author`
field models a client-supplied author value; the serializer declares
`author` read-only, so it is never consulted. -/
structure CommentInput where
  post : String
  content : Option String
  parent : Option Nat
  author : Option Nat
deriving Repr, DecidableEq

/-- Client-writable fields of `PostSerializer`: `category` and `tag`
are name strings (`SlugRelatedField`), `author` is read-only and so
never consulted. -/
structure PostInput where
  title : String
  content : String
  category : String
  tag : List String
  author : Option Nat
deriving Repr, DecidableEq

/-- Field-level validation failures raised by the serializers. -/
inductive CreateError where
  | unknownPost
  | unknownParent
  | missingContent
  | missingTitle
  | unknownCategory
  | unknownTag
deriving Repr, DecidableEq

/-- `Post.objects.all()` lookup by title, as `SlugRelatedField`
resolves the `post` slug on write. -/
def findPostByTitle (s : Store) (t : String) : Option Post :=
  s.posts.find? (fun p => p.title == t)

def findPostById (s : Store) (pid : Nat) : Option Post :=
  s.posts.find? (fun p => p.id == pid)

/-- `Comment.objects.all()` lookup by primary key, as
`PrimaryKeyRelatedField` resolves `parent` on write. -/
def findComment (s : Store) (cid : Nat) : Option Comment :=
  s.comments.find? (fun c => c.id == cid)

/-- `SlugRelatedField(many=True)` resolution of the tag name list. -/
def resolveTags (s : Store) : List String → Option (List Nat)
  | [] => some []
  | t :: ts =>
    match s.tags.find? (fun x => x.name == t) with
    | none => none
    | some tg => (resolveTags s ts).map (fun r => tg.id :: r)

/-- `CommentViewSet.perform_create` composed with the serializer's
validation: resolve `post` by title and `parent` by id, require a
non-empty `content`, then insert a new row whose `author` is the
requesting user (`serializer.save(author=self.request.user)`) — the
client-supplied author field is never read. -/
def createComment (s : Store) (requester : Nat) (inp : CommentInput) :
    Except CreateError (Store × Comment) :=
  match findPostByTitle s inp.post with
  | none => .error .unknownPost
  | some p =>
    match inp.content with
    | none => .error .missingContent
    | some body =>
      if body = "" then .error .missingContent
      else
        match inp.parent with
        | none =>
          let cn : Comment :=
            { id := s.nextId, post := p.id, content := body,
              author := requester, parent := none,
              created_at := s.clock, updated_at := s.clock }
          .ok ({ s with
                 comments := s.comments ++ [cn],
                 nextId := s.nextId + 1,
                 clock := s.clock + 1 }, cn)
        | some pid =>
          match findComment s pid with
          | none => .error .unknownParent
          | some pc =>
            let cn : Comment :=
              { id := s.nextId, post := p.id, content := body,
                author := requester, parent := some pc.id,
                created_at := s.clock, updated_at := s.clock }
            .ok ({ s with
                   comments := s.comments ++ [cn],
                   nextId := s.nextId + 1,
                   clock := s.clock + 1 }, cn)

/-- `PostViewSet.perform_create` composed with `PostSerializer`
validation: title and content required, `category` and `tag` resolved
by name, author forced to the requesting user. -/
def createPost (s : Store) (requester : Nat) (inp : PostInput) :
    Except CreateError (Store × Post) :=
  if inp.title = "" then .error .missingTitle
  else if inp.content = "" then .error .missingContent
  else
    match s.categories.find? (fun c => c.name == inp.category) with
    | none => .error .unknownCategory
    | some cat =>
      match resolveTags s inp.tag with
      | none => .error .unknownTag
      | some tids =>
        let p : Post :=
          { id := s.nextId, title := inp.title, content := inp.content,
            category := some cat.id, tag := tids,
            created_at := s.clock, updated_at := s.clock, author := requester }
        .ok ({ s with
               posts := s.posts ++ [p],
               nextId := s.nextId + 1,
               clock := s.clock + 1 }, p)

/-- C3: creation ignores any client-supplied author and stores the
authenticated caller as author, for both posts and comments: the
outcome is identical whatever author value the request body carries,
and on success the stored author equals the requester. -/
theorem perform_create_author (s : Store) (u : Nat)
    (ci : CommentInput) (pin : PostInput) (a b : Option Nat) :
    createComment s u { ci with author := a } = createComment s u ci
    ∧ createPost s u { pin with author := b } = createPost s u pin
    ∧ (∀ s' cn, createComment s u ci = .ok (s', cn) → cn.author = u)
    ∧ (∀ s' p, createPost s u pin = .ok (s', p) → p.author = u) := by
  refine ⟨?_, ?_, ?_, ?_⟩
  · cases ci; rfl
  · cases pin; rfl
  · intro s' cn h
    unfold createComment at h
    cases hfp : findPostByTitle s ci.post with
    | none => simp [hfp] at h
    | some p =>
      cases hct : ci.content with
      | none => simp [hfp, hct] at h
      | some body =>
        by_cases hb : body = ""
        · simp [hfp, hct, hb] at h
        · cases hpar : ci.parent with
          | none =>
            simp only [hfp, hct, hpar, if_neg hb, Except.ok.injEq, Prod.mk.injEq] at h
            rw [← h.2]
          | some pid =>
            cases hfc : findComment s pid with
            | none => simp [hfp, hct, hb, hpar, hfc] at h
            | some pc =>
              simp only [hfp, hct, hpar, hfc, if_neg hb, Except.ok.injEq,
                Prod.mk.injEq] at h
              rw [← h.2]
  · intro s' p h
    unfold createPost at h
    by_cases ht : pin.title = ""
    · simp [ht] at h
    · by_cases hc : pin.content = ""
      · simp [ht, hc] at h
      · cases hcat : s.categories.find? (fun c => c.name == pin.category) with
        | none => simp [ht, hc, hcat] at h
        | some cat =>
          cases htg : resolveTags s pin.tag with
          | none => simp [ht, hc, hcat, htg] at h
          | some tids =>
            simp only [hcat, htg, if_neg ht, if_neg hc, Except.ok.injEq,
              Prod.mk.injEq] at h
            rw [← h.2]

theorem perform_create_author_witness :
    createComment exStore 1
        { post := "Intro", content := some "spoofed", parent := none, author := some 99 }
      = createComment exStore 1
        { post := "Intro", content := some "spoofed", parent := none, author := none }
    ∧ ∀ s' cn, createComment exStore 1
        { post := "Intro", content := some "spoofed", parent := none, author := none }
        = .ok (s', cn) → cn.author = 1 :=
  ⟨(perform_create_author exStore 1
      { post := "Intro", content := some "spoofed", parent := none, author := none }
      { title := "t", content := "c", category := "x", tag := [], author := none }
      (some 99) none).1,
   (perform_create_author exStore 1
      { post := "Intro", content := some "spoofed", parent := none, author := none }
      { title := "t", content := "c", category := "x", tag := [], author := none }
      (some 99) none).2.2.1⟩

/-- HTTP methods a DRF viewset dispatches on. -/
inductive Method where
  | GET | HEAD | OPTIONS | POST | PUT | PATCH | DELETE
deriving Repr, DecidableEq

/-- `rest_framework.permissions.SAFE_METHODS = ('GET', 'HEAD', 'OPTIONS')`. -/
def SAFE_METHODS : List Method := [.GET, .HEAD, .OPTIONS]

/-- A request as the permission class sees it: the method and
`request.user` (`none` models `AnonymousUser`, for which
`is_authenticated` is false and which equals no stored author). -/
structure Request where
  method : Method
  user : Option Nat
deriving Repr, DecidableEq

/-- `IsAuthorOrReadOnly.has_permission`: safe methods always pass;
write methods require `request.user and request.user.is_authenticated`. -/
def has_permission (req : Request) : Bool :=
  SAFE_METHODS.contains req.method || req.user.isSome

/-- `IsAuthorOrReadOnly.has_object_permission`: safe methods always
pass; write methods require `obj.author == request.user`. -/
def has_object_permission (req : Request) (objAuthor : Nat) : Bool :=
  SAFE_METHODS.contains req.method
    || (match req.user with
        | some u => u == objAuthor
        | none => false)

/-- The permission classes available in `posts/permissions.py`. -/
inductive PermClass where
  | isAuthorOrReadOnly
deriving Repr, DecidableEq

/-- The five routed resources of `posts/views.py` / `posts/urls.py`. -/
inductive Resource where
  | users | category | tags | posts | comments
deriving Repr, DecidableEq

/-- `permission_classes` per viewset: `PostViewSet` and `CommentViewSet`
set `(IsAuthorOrReadOnly,)`; `CategoryViewSet`, `TagViewSet` and
`UserViewSet` set none, so no authorization check is attached to them
(the project applies DRF's default allow-any policy there). -/
def permission_classes : Resource → List PermClass
  | .posts => [.isAuthorOrReadOnly]
  | .comments => [.isAuthorOrReadOnly]
  | _ => []

def runPermission : PermClass → Request → Bool
  | .isAuthorOrReadOnly, req => has_permission req

def runObjectPermission : PermClass → Request → Nat → Bool
  | .isAuthorOrReadOnly, req, author => has_object_permission req author

/-- `APIView.check_permissions`: every configured permission class must
allow the request. -/
def checkPermissions (r : Resource) (req : Request) : Bool :=
  (permission_classes r).all (fun pc => runPermission pc req)

/-- `APIView.check_object_permissions`: every configured permission
class must allow the request on the loaded object. -/
def checkObjectPermissions (r : Resource) (req : Request) (author : Nat) : Bool :=
  (permission_classes r).all (fun pc => runObjectPermission pc req author)

/-- Request outcomes, as distinguishable status classes:
`success` (2xx), `forbidden` (403 permission denial), `notFound` (404),
`invalid` (400 validation failure). -/
inductive Outcome where
  | success | forbidden | notFound | invalid
deriving Repr, DecidableEq

/-- `GET /posts/{id}/`: request-level check, object load, object-level
check, serialize. -/
def retrievePost (s : Store) (u : Option Nat) (pid : Nat) : Outcome :=
  if !(checkPermissions .posts ⟨.GET, u⟩) then .forbidden
  else
    match findPostById s pid with
    | none => .notFound
    | some p =>
      if !(checkObjectPermissions .posts ⟨.GET, u⟩ p.author) then .forbidden
      else .success

/-- `GET /comments/{id}/`. -/
def retrieveComment (s : Store) (u : Option Nat) (cid : Nat) : Outcome :=
  if !(checkPermissions .comments ⟨.GET, u⟩) then .forbidden
  else
    match findComment s cid with
    | none => .notFound
    | some c =>
      if !(checkObjectPermissions .comments ⟨.GET, u⟩ c.author) then .forbidden
      else .success

/-- `PATCH /posts/{id}/` updating the title.  The request-level check
runs before the object is loaded; a permission failure leaves the
store untouched. -/
def updatePost (s : Store) (u : Option Nat) (pid : Nat) (newTitle : String) :
    Outcome × Store :=
  if !(checkPermissions .posts ⟨.PATCH, u⟩) then (.forbidden, s)
  else
    match findPostById s pid with
    | none => (.notFound, s)
    | some p =>
      if !(checkObjectPermissions .posts ⟨.PATCH, u⟩ p.author) then (.forbidden, s)
      else if newTitle = "" then (.invalid, s)
      else
        (.success,
         { s with
           posts := s.posts.map (fun q =>
             if q.id == pid then { q with title := newTitle, updated_at := s.clock } else q),
           clock := s.clock + 1 })

/-- `PATCH /comments/{id}/` updating the content. -/
def updateComment (s : Store) (u : Option Nat) (cid : Nat) (newContent : String) :
    Outcome × Store :=
  if !(checkPermissions .comments ⟨.PATCH, u⟩) then (.forbidden, s)
  else
    match findComment s cid with
    | none => (.notFound, s)
    | some c =>
      if !(checkObjectPermissions .comments ⟨.PATCH, u⟩ c.author) then (.forbidden, s)
      else if newContent = "" then (.invalid, s)
      else
        (.success,
         { s with
           comments := s.comments.map (fun x =>
             if x.id == cid then { x with content := newContent, updated_at := s.clock } else x),
           clock := s.clock + 1 })

/-- Ancestor chain of a comment: follow `parent` foreign keys through
the store, with fuel (any acyclic chain is shorter than the table). -/
def ancestors (cs : List Comment) : Nat → Comment → List Comment
  | 0, _ => []
  | fuel + 1, c =>
    match c.parent with
    | none => []
    | some p =>
      match cs.find? (fun x => x.id == p) with
      | none => []
      | some pc => pc :: ancestors cs fuel pc

/-- `Comment.parent` has `on_delete=CASCADE`: deleting comment `cid`
removes it and, transitively, every comment whose ancestor chain
contains it. -/
def deleteCommentCascade (s : Store) (cid : Nat) : Store :=
  { s with
    comments := s.comments.filter (fun d =>
      !(d.id == cid)
        && !((ancestors s.comments s.comments.length d).any (fun a => a.id == cid))) }

/-- `Comment.post` has `on_delete=CASCADE`: deleting post `pid` removes
every comment of that post, and (through the parent cascade) every
comment one of whose ancestors belonged to that post. -/
def deletePostCascade (s : Store) (pid : Nat) : Store :=
  { s with
    posts := s.posts.filter (fun p => !(p.id == pid)),
    comments := s.comments.filter (fun d =>
      !(d.post == pid)
        && !((ancestors s.comments s.comments.length d).any (fun a => a.post == pid))) }

/-- `DELETE /posts/{id}/`. -/
def deletePostE (s : Store) (u : Option Nat) (pid : Nat) : Outcome × Store :=
  if !(checkPermissions .posts ⟨.DELETE, u⟩) then (.forbidden, s)
  else
    match findPostById s pid with
    | none => (.notFound, s)
    | some p =>
      if !(checkObjectPermissions .posts ⟨.DELETE, u⟩ p.author) then (.forbidden, s)
      else (.success, deletePostCascade s pid)

/-- `DELETE /comments/{id}/`. -/
def deleteCommentE (s : Store) (u : Option Nat) (cid : Nat) : Outcome × Store :=
  if !(checkPermissions .comments ⟨.DELETE, u⟩) then (.forbidden, s)
  else
    match findComment s cid with
    | none => (.notFound, s)
    | some c =>
      if !(checkObjectPermissions .comments ⟨.DELETE, u⟩ c.author) then (.forbidden, s)
      else (.success, deleteCommentCascade s cid)

/-- `POST /comments/`: request-level permission check, then serializer
validation and `perform_create`. -/
def createCommentE (s : Store) (u : Option Nat) (inp : CommentInput) :
    Outcome × Store :=
  if !(checkPermissions .comments ⟨.POST, u⟩) then (.forbidden, s)
  else
    match u with
    | none => (.forbidden, s)
    | some uid =>
      match createComment s uid inp with
      | .error _ => (.invalid, s)
      | .ok (s', _) => (.success, s')

/-- `POST /posts/`. -/
def createPostE (s : Store) (u : Option Nat) (inp : PostInput) :
    Outcome × Store :=
  if !(checkPermissions .posts ⟨.POST, u⟩) then (.forbidden, s)
  else
    match u with
    | none => (.forbidden, s)
    | some uid =>
      match createPost s uid inp with
      | .error _ => (.invalid, s)
      | .ok (s', _) => (.success, s')

/-- C4: safe (read) requests on posts and comments succeed for every
caller including anonymous ones; mutating requests (update, delete,
create) by an unauthenticated caller or by an authenticated caller who
is not the stored author yield the `forbidden` outcome — distinct from
`invalid` and `notFound` — and leave the store unchanged. -/
theorem author_or_read_only_gate (s : Store) (u : Option Nat) (pid cid : Nat)
    (t b : String) (p : Post) (c : Comment)
    (hp : findPostById s pid = some p)
    (hc : findComment s cid = some c)
    (hup : ∀ v, u = some v → v ≠ p.author)
    (huc : ∀ v, u = some v → v ≠ c.author) :
    (∀ w : Option Nat, retrievePost s w pid = .success ∧ retrieveComment s w cid = .success)
    ∧ updatePost s u pid t = (.forbidden, s)
    ∧ deletePostE s u pid = (.forbidden, s)
    ∧ updateComment s u cid b = (.forbidden, s)
    ∧ deleteCommentE s u cid = (.forbidden, s)
    ∧ (u = none → ∀ (ci : CommentInput) (pin : PostInput),
        createCommentE s u ci = (.forbidden, s) ∧ createPostE s u pin = (.forbidden, s))
    ∧ (Outcome.forbidden ≠ Outcome.invalid ∧ Outcome.forbidden ≠ Outcome.notFound) := by
  refine ⟨?_, ?_, ?_, ?_, ?_, ?_, by decide⟩
  · intro w
    constructor
    · simp [retrievePost, hp, checkPermissions, checkObjectPermissions,
        permission_classes, runPermission, runObjectPermission,
        has_permission, has_object_permission, SAFE_METHODS]
    · simp [retrieveComment, hc, checkPermissions, checkObjectPermissions,
        permission_classes, runPermission, runObjectPermission,
        has_permission, has_object_permission, SAFE_METHODS]
  · cases u with
    | none => rfl
    | some v =>
      have hne : v ≠ p.author := hup v rfl
      simp [updatePost, hp, checkPermissions, checkObjectPermissions,
        permission_classes, runPermission, runObjectPermission,
        has_permission, has_object_permission, SAFE_METHODS, hne]
  · cases u with
    | none => rfl
    | some v =>
      have hne : v ≠ p.author := hup v rfl
      simp [deletePostE, hp, checkPermissions, checkObjectPermissions,
        permission_classes, runPermission, runObjectPermission,
        has_permission, has_object_permission, SAFE_METHODS, hne]
  · cases u with
    | none => rfl
    | some v =>
      have hne : v ≠ c.author := huc v rfl
      simp [updateComment, hc, checkPermissions, checkObjectPermissions,
        permission_classes, runPermission, runObjectPermission,
        has_permission, has_object_permission, SAFE_METHODS, hne]
  · cases u with
    | none => rfl
    | some v =>
      have hne : v ≠ c.author := huc v rfl
      simp [deleteCommentE, hc, checkPermissions, checkObjectPermissions,
        permission_classes, runPermission, runObjectPermission,
        has_permission, has_object_permission, SAFE_METHODS, hne]
  · intro hu ci pin
    subst hu
    exact ⟨rfl, rfl⟩

theorem author_or_read_only_gate_witness :
    (∀ w : Option Nat,
        retrievePost exStore w 1 = .success ∧ retrieveComment exStore w 1 = .success)
    ∧ updatePost exStore (some 2) 1 "hacked" = (.forbidden, exStore)
    ∧ deletePostE exStore (some 2) 1 = (.forbidden, exStore)
    ∧ updateComment exStore (some 2) 1 "hacked" = (.forbidden, exStore)
    ∧ deleteCommentE exStore (some 2) 1 = (.forbidden, exStore)
    ∧ (some 2 = none → ∀ (ci : CommentInput) (pin : PostInput),
        createCommentE exStore (some 2) ci = (.forbidden, exStore)
          ∧ createPostE exStore (some 2) pin = (.forbidden, exStore))
    ∧ (Outcome.forbidden ≠ Outcome.invalid ∧ Outcome.forbidden ≠ Outcome.notFound) :=
  author_or_read_only_gate exStore (some 2) 1 1 "hacked" "hacked" exPost exC1
    (by decide) (by decide)
    (by intro v hv; injection hv with h; subst h; decide)
    (by intro v hv; injection hv with h; subst h; decide)

/-- `POST /category/`: no permission classes are attached, only the
unique-name constraint is checked. -/
def createCategoryE (s : Store) (u : Option Nat) (cname : String) :
    Outcome × Store :=
  if !(checkPermissions .category ⟨.POST, u⟩) then (.forbidden, s)
  else if s.categories.any (fun c => c.name == cname) then (.invalid, s)
  else
    (.success,
     { s with
       categories := s.categories ++ [⟨s.nextId, cname⟩],
       nextId := s.nextId + 1 })

/-- `DELETE /category/{id}/`: `Post.category` has `on_delete=SET_NULL`,
so deleting a category nulls it out on every post referencing it. -/
def deleteCategoryE (s : Store) (u : Option Nat) (cid : Nat) : Outcome × Store :=
  if !(checkPermissions .category ⟨.DELETE, u⟩) then (.forbidden, s)
  else
    match s.categories.find? (fun c => c.id == cid) with
    | none => (.notFound, s)
    | some _ =>
      (.success,
       { s with
         categories := s.categories.filter (fun c => !(c.id == cid)),
         posts := s.posts.map (fun p =>
           if p.category == some cid then { p with category := none } else p) })

/-- `POST /tags/`. -/
def createTagE (s : Store) (u : Option Nat) (tname : String) : Outcome × Store :=
  if !(checkPermissions .tags ⟨.POST, u⟩) then (.forbidden, s)
  else if s.tags.any (fun x => x.name == tname) then (.invalid, s)
  else
    (.success,
     { s with
       tags := s.tags ++ [⟨s.nextId, tname⟩],
       nextId := s.nextId + 1 })

/-- `DELETE /tags/{id}/`: a many-to-many deletion removes the tag from
every post's tag set. -/
def deleteTagE (s : Store) (u : Option Nat) (tid : Nat) : Outcome × Store :=
  if !(checkPermissions .tags ⟨.DELETE, u⟩) then (.forbidden, s)
  else
    match s.tags.find? (fun x => x.id == tid) with
    | none => (.notFound, s)
    | some _ =>
      (.success,
       { s with
         tags := s.tags.filter (fun x => !(x.id == tid)),
         posts := s.posts.map (fun p =>
           { p with tag := p.tag.filter (fun i => !(i == tid)) }) })

/-- C10: the author-or-read-only gate is attached only to the post and
comment viewsets; the category and tag viewsets carry no permission
class, so their permission checks pass for every request — any caller,
authenticated or not, and no category/tag mutation is ever rejected as
forbidden. -/
theorem category_tag_unprotected (s : Store) (u : Option Nat)
    (cid tid a : Nat) (cname tname : String) (req : Request) :
    checkPermissions .category req = true
    ∧ checkObjectPermissions .category req a = true
    ∧ checkPermissions .tags req = true
    ∧ checkObjectPermissions .tags req a = true
    ∧ permission_classes .posts = [.isAuthorOrReadOnly]
    ∧ permission_classes .comments = [.isAuthorOrReadOnly]
    ∧ (createCategoryE s u cname).1 ≠ .forbidden
    ∧ (deleteCategoryE s u cid).1 ≠ .forbidden
    ∧ (createTagE s u tname).1 ≠ .forbidden
    ∧ (deleteTagE s u tid).1 ≠ .forbidden := by
  refine ⟨rfl, rfl, rfl, rfl, rfl, rfl, ?_, ?_, ?_, ?_⟩
  · simp only [createCategoryE, checkPermissions, permission_classes, List.all_nil,
      Bool.not_true, Bool.false_eq_true, if_false]
    split <;> simp
  · simp only [deleteCategoryE, checkPermissions, permission_classes, List.all_nil,
      Bool.not_true, Bool.false_eq_true, if_false]
    cases s.categories.find? (fun c => c.id == cid) <;> simp
  · simp only [createTagE, checkPermissions, permission_classes, List.all_nil,
      Bool.not_true, Bool.false_eq_true, if_false]
    split <;> simp
  · simp only [deleteTagE, checkPermissions, permission_classes, List.all_nil,
      Bool.not_true, Bool.false_eq_true, if_false]
    cases s.tags.find? (fun x => x.id == tid) <;> simp

/-- Number of stored comments with id strictly below `i`: the measure
that shrinks when the ancestor chain climbs to a parent. -/
def mp (s : Store) (i : Nat) : Nat :=
  (s.comments.filter (fun d => decide (d.id < i))).length

theorem mp_parent_lt (s : Store) (hwf : wfComments s.comments = true)
    (c : Comment) (hc : c ∈ s.comments) (p : Nat) (hp : c.parent = some p)
    (pc : Comment) (hpc : pc ∈ s.comments) (hpcid : pc.id = p) :
    mp s pc.id < mp s c.id := by
  have hplt : p < c.id := wf_parent_lt s.comments hwf c hc p hp
  refine length_filter_lt _ _ pc s.comments ?_ hpc ?_ ?_
  · intro a _ ha
    have : a.id < pc.id := of_decide_eq_true ha
    exact decide_eq_true (by omega)
  · simp
  · exact decide_eq_true (by omega)

theorem mp_le_pred (s : Store) (c : Comment) (hc : c ∈ s.comments) :
    mp s c.id < s.comments.length := by
  have h := length_filter_lt (fun d => decide (d.id < c.id)) (fun _ => true) c
    s.comments (fun a _ _ => rfl) hc (by simp) rfl
  simpa [mp, List.filter_true] using h

theorem find?_id_eq : ∀ (l : List Comment),
    List.Pairwise (fun a b => a.id < b.id) l →
    ∀ c ∈ l, l.find? (fun x => x.id == c.id) = some c := by
  intro l
  induction l with
  | nil => intro _ c hc; cases hc
  | cons a tl ih =>
    intro hpw c hc
    obtain ⟨ha, htl⟩ := List.pairwise_cons.mp hpw
    rcases List.mem_cons.mp hc with rfl | hc'
    · simp [List.find?_cons]
    · have hne : a.id ≠ c.id := by
        have := ha c hc'
        omega
      rw [List.find?_cons]
      have : (a.id == c.id) = false := beq_eq_false_iff_ne.mpr hne
      rw [this]
      exact ih htl c hc'

theorem ancestors_stable (s : Store) (hwf : wfComments s.comments = true) :
    ∀ (f₁ : Nat) (c : Comment), c ∈ s.comments → ∀ (f₂ : Nat),
      mp s c.id ≤ f₁ → mp s c.id ≤ f₂ →
      ancestors s.comments f₁ c = ancestors s.comments f₂ c := by
  intro f₁
  induction f₁ with
  | zero =>
    intro c hc f₂ h₁ h₂
    cases f₂ with
    | zero => rfl
    | succ f' =>
      simp only [ancestors]
      cases hp : c.parent with
      | none => rfl
      | some p =>
        cases hfc : s.comments.find? (fun x => x.id == p) with
        | none => simp [hfc]
        | some pc =>
          exfalso
          have hpcm : pc ∈ s.comments := List.mem_of_find?_eq_some hfc
          have hbeq := @List.find?_some _ (fun x => x.id == p) pc s.comments hfc
          have hpcid : pc.id = p := by simpa using hbeq
          have : mp s pc.id < mp s c.id :=
            mp_parent_lt s hwf c hc p hp pc hpcm hpcid
          omega
  | succ f ih =>
    intro c hc f₂ h₁ h₂
    cases f₂ with
    | zero =>
      simp only [ancestors]
      cases hp : c.parent with
      | none => rfl
      | some p =>
        cases hfc : s.comments.find? (fun x => x.id == p) with
        | none => simp [hfc]
        | some pc =>
          exfalso
          have hpcm : pc ∈ s.comments := List.mem_of_find?_eq_some hfc
          have hbeq := @List.find?_some _ (fun x => x.id == p) pc s.comments hfc
          have hpcid : pc.id = p := by simpa using hbeq
          have : mp s pc.id < mp s c.id :=
            mp_parent_lt s hwf c hc p hp pc hpcm hpcid
          omega
    | succ f' =>
      simp only [ancestors]
      cases hp : c.parent with
      | none => rfl
      | some p =>
        cases hfc : s.comments.find? (fun x => x.id == p) with
        | none => simp [hfc]
        | some pc =>
          simp only [hfc]
          have hpcm : pc ∈ s.comments := List.mem_of_find?_eq_some hfc
          have hbeq := @List.find?_some _ (fun x => x.id == p) pc s.comments hfc
          have hpcid : pc.id = p := by simpa using hbeq
          have hlt : mp s pc.id < mp s c.id :=
            mp_parent_lt s hwf c hc p hp pc hpcm hpcid
          rw [ih pc hpcm f' (by omega) (by omega)]

theorem ancestors_cons (s : Store) (hwf : wfComments s.comments = true)
    (d c : Comment) (hd : d ∈ s.comments) (hc : c ∈ s.comments)
    (hp : d.parent = some c.id) :
    ancestors s.comments s.comments.length d
      = c :: ancestors s.comments s.comments.length c := by
  obtain ⟨k, hn⟩ : ∃ k, s.comments.length = k + 1 := by
    cases hl : s.comments.length with
    | zero =>
      exfalso
      rw [List.length_eq_zero] at hl
      rw [hl] at hd
      cases hd
    | succ k => exact ⟨k, rfl⟩
  have hfind : s.comments.find? (fun x => x.id == c.id) = some c :=
    find?_id_eq s.comments (wf_pairwise s.comments hwf) c hc
  have hmp : mp s c.id < s.comments.length := mp_le_pred s c hc
  conv_lhs => rw [hn]
  simp only [ancestors, hp, hfind]
  rw [ancestors_stable s hwf k c hc s.comments.length (by omega) (by omega)]

/-- C8: `on_delete=CASCADE` on `Comment.post` and `Comment.parent`:
deleting a post removes every comment of that post from the store;
deleting a comment removes it and every comment whose ancestor chain
contains it — transitively: a comment whose parent is removed is
removed too — and removes nothing else (comments outside the deleted
subtree are kept, so this is store-level deletion, not hiding). -/
theorem cascade_delete (s : Store) (hwf : wfComments s.comments = true)
    (pid cid : Nat) (d : Comment) (hd : d ∈ s.comments) :
    (d.post = pid → d ∉ (deletePostCascade s pid).comments)
    ∧ (d.id = cid → d ∉ (deleteCommentCascade s cid).comments)
    ∧ ((ancestors s.comments s.comments.length d).any (fun a => a.id == cid) = true →
        d ∉ (deleteCommentCascade s cid).comments)
    ∧ (∀ c ∈ s.comments, d.parent = some c.id →
        c ∉ (deleteCommentCascade s cid).comments →
        d ∉ (deleteCommentCascade s cid).comments)
    ∧ (d.id ≠ cid →
        (ancestors s.comments s.comments.length d).any (fun a => a.id == cid) = false →
        d ∈ (deleteCommentCascade s cid).comments) := by
  refine ⟨?_, ?_, ?_, ?_, ?_⟩
  · intro hpost hmem
    simp only [deletePostCascade, List.mem_filter] at hmem
    simp [hpost] at hmem
  · intro hid hmem
    simp only [deleteCommentCascade, List.mem_filter] at hmem
    simp [hid] at hmem
  · intro hany hmem
    simp only [deleteCommentCascade, List.mem_filter] at hmem
    simp [hany] at hmem
  · intro c hc hpar hcnot
    have hchain : ancestors s.comments s.comments.length d
        = c :: ancestors s.comments s.comments.length c :=
      ancestors_cons s hwf d c hd hc hpar
    have hcdead : (c.id == cid) = true
        ∨ (ancestors s.comments s.comments.length c).any (fun a => a.id == cid) = true := by
      by_contra hcon
      push_neg at hcon
      apply hcnot
      simp only [deleteCommentCascade, List.mem_filter]
      refine ⟨hc, ?_⟩
      simp only [Bool.and_eq_true, Bool.not_eq_true']
      exact ⟨Bool.not_eq_true _ ▸ (Bool.eq_false_iff.mpr hcon.1),
             Bool.eq_false_iff.mpr hcon.2⟩
    intro hmem
    simp only [deleteCommentCascade, List.mem_filter, Bool.and_eq_true,
      Bool.not_eq_true'] at hmem
    have hanyd := hmem.2.2
    rw [hchain] at hanyd
    simp only [List.any_cons, Bool.or_eq_false_iff] at hanyd
    rcases hcdead with h1 | h2
    · rw [hanyd.1] at h1
      cases h1
    · rw [hanyd.2] at h2
      cases h2
  · intro hne hany
    simp only [deleteCommentCascade, List.mem_filter]
    refine ⟨hd, ?_⟩
    simp [hne, hany]

theorem cascade_delete_witness :
    (exC2.post = 1 → exC2 ∉ (deletePostCascade exStore 1).comments)
    ∧ (exC2.id = 1 → exC2 ∉ (deleteCommentCascade exStore 1).comments)
    ∧ ((ancestors exStore.comments exStore.comments.length exC2).any
          (fun a => a.id == 1) = true →
        exC2 ∉ (deleteCommentCascade exStore 1).comments)
    ∧ (∀ c ∈ exStore.comments, exC2.parent = some c.id →
        c ∉ (deleteCommentCascade exStore 1).comments →
        exC2 ∉ (deleteCommentCascade exStore 1).comments)
    ∧ (exC2.id ≠ 1 →
        (ancestors exStore.comments exStore.comments.length exC2).any
          (fun a => a.id == 1) = false →
        exC2 ∈ (deleteCommentCascade exStore 1).comments) :=
  cascade_delete exStore (by decide) 1 1 exC2 (by decide)

/-- `CommentViewSet.get_queryset` followed by serialization of every
row: all comments, restricted to one post when the `post_id` query
parameter is present, each row — root or reply — serialized on its own
with its full nested `replies` tree. -/
def commentListing (s : Store) (pid : Option Nat) : List CommentNode :=
  (match pid with
   | none => s.comments
   | some i => s.comments.filter (fun d => d.post == i)).map (serialize s)

/-- C5: filtering the comment listing by a post id returns every
comment of that post — roots and replies alike — as its own flat
entry, each entry carrying its own recursively nested `replies`; hence
a reply to a same-post parent appears twice in the payload: once
nested inside its parent's entry and once as its own entry. -/
theorem listing_flat_and_nested (s : Store) (hwf : wfComments s.comments = true)
    (pid : Nat) (c d : Comment) (hc : c ∈ s.comments) (hd : d ∈ s.comments)
    (hcp : c.post = pid) (hdp : d.post = pid) (hpar : d.parent = some c.id) :
    (∀ e ∈ s.comments, e.post = pid → serialize s e ∈ commentListing s (some pid))
    ∧ serialize s d ∈ (serialize s c).replies
    ∧ (serialize s d).replies = (childrenOf s d.id).map (serialize s) := by
  refine ⟨?_, ?_, ?_⟩
  · intro e he hep
    simp only [commentListing]
    exact List.mem_map.mpr ⟨e, List.mem_filter.mpr ⟨he, by simp [hep]⟩, rfl⟩
  · rw [serialize_unfold s hwf c hc]
    simp only [CommentNode.replies]
    exact List.mem_map.mpr ⟨d, List.mem_filter.mpr ⟨hd, decide_eq_true hpar⟩, rfl⟩
  · rw [serialize_unfold s hwf d hd]
    rfl

theorem listing_flat_and_nested_witness :
    (∀ e ∈ exStore.comments, e.post = 1 →
        serialize exStore e ∈ commentListing exStore (some 1))
    ∧ serialize exStore exC2 ∈ (serialize exStore exC1).replies
    ∧ (serialize exStore exC2).replies = (childrenOf exStore exC2.id).map (serialize exStore) :=
  listing_flat_and_nested exStore (by decide) 1 exC1 exC2
    (by decide) (by decide) (by decide) (by decide) (by decide)

/-- Store-level invariant maintained by the creation contract: the
comment table is well formed and every stored id is below the next
auto-increment key. -/
def wfStore (s : Store) : Bool :=
  wfComments s.comments && s.comments.all (fun c => decide (c.id < s.nextId))

theorem serialize_nid (s : Store) (c : Comment) :
    (serialize s c).nid = c.id := by
  unfold serialize
  cases s.comments.length <;> rfl

theorem createComment_ok_shape (s : Store) (u : Nat) (inp : CommentInput)
    (s' : Store) (cn : Comment) (h : createComment s u inp = .ok (s', cn)) :
    s' = { s with
           comments := s.comments ++ [cn],
           nextId := s.nextId + 1,
           clock := s.clock + 1 }
    ∧ cn.id = s.nextId
    ∧ (cn.parent = none ∨ ∃ pc ∈ s.comments, cn.parent = some pc.id) := by
  unfold createComment at h
  cases hfp : findPostByTitle s inp.post with
  | none => simp [hfp] at h
  | some p =>
    cases hct : inp.content with
    | none => simp [hfp, hct] at h
    | some body =>
      by_cases hb : body = ""
      · simp [hfp, hct, hb] at h
      · cases hpar : inp.parent with
        | none =>
          simp only [hfp, hct, hpar, if_neg hb, Except.ok.injEq, Prod.mk.injEq] at h
          refine ⟨?_, ?_, Or.inl ?_⟩
          · rw [← h.1, ← h.2]
          · rw [← h.2]
          · rw [← h.2]
        | some pid =>
          cases hfc : findComment s pid with
          | none => simp [hfp, hct, hb, hpar, hfc] at h
          | some pc =>
            simp only [hfp, hct, hpar, hfc, if_neg hb, Except.ok.injEq,
              Prod.mk.injEq] at h
            refine ⟨?_, ?_, Or.inr ⟨pc, List.mem_of_find?_eq_some hfc, ?_⟩⟩
            · rw [← h.1, ← h.2]
            · rw [← h.2]
            · rw [← h.2]

theorem wf_append : ∀ (l : List Comment) (cn : Comment),
    wfComments l = true → (∀ x ∈ l, x.id < cn.id) →
    (match cn.parent with
     | none => true
     | some p => decide (p < cn.id)) = true →
    wfComments (l ++ [cn]) = true := by
  intro l
  induction l with
  | nil =>
    intro cn _ _ hpar
    simp [wfComments, hpar]
  | cons a tl ih =>
    intro cn hwf hlt hpar
    simp only [wfComments, Bool.and_eq_true] at hwf
    obtain ⟨⟨hall, hapar⟩, htl⟩ := hwf
    simp only [List.cons_append, wfComments, Bool.and_eq_true]
    refine ⟨⟨?_, hapar⟩, ih cn htl
      (fun x hx => hlt x (List.mem_cons_of_mem a hx)) hpar⟩
    show ((tl ++ [cn]).all fun d => decide (a.id < d.id)) = true
    rw [List.all_append]
    simp only [Bool.and_eq_true]
    constructor
    · exact hall
    · simp only [List.all_cons, List.all_nil, Bool.and_true]
      exact decide_eq_true (hlt a (List.mem_cons_self a tl))

/-- C9: the serialized `replies` of a comment list its reply rows in
store (insertion) order; since the creation contract appends each new
comment at the end of the table with a fresh maximal id, sibling ids
strictly increase along the list, i.e. siblings appear in creation
order.  Creation preserves the store invariant and appends. -/
theorem replies_insertion_order (s : Store) (hwf : wfComments s.comments = true)
    (c : Comment) (hc : c ∈ s.comments) :
    (serialize s c).replies = (childrenOf s c.id).map (serialize s)
    ∧ List.Pairwise (fun x y => x.nid < y.nid) (serialize s c).replies
    ∧ (∀ (u : Nat) (inp : CommentInput) (s' : Store) (cn : Comment),
        wfStore s = true → createComment s u inp = Except.ok (s', cn) →
        s'.comments = s.comments ++ [cn] ∧ wfStore s' = true) := by
  have hrep : (serialize s c).replies = (childrenOf s c.id).map (serialize s) := by
    rw [serialize_unfold s hwf c hc]
    rfl
  refine ⟨hrep, ?_, ?_⟩
  · rw [hrep, List.pairwise_map]
    have hpw : List.Pairwise (fun a b => a.id < b.id) (childrenOf s c.id) :=
      List.Pairwise.sublist (List.filter_sublist s.comments) (wf_pairwise s.comments hwf)
    refine hpw.imp ?_
    intro a b hab
    rw [serialize_nid, serialize_nid]
    exact hab
  · intro u inp s' cn hws h
    obtain ⟨hs', hid, hparshape⟩ := createComment_ok_shape s u inp s' cn h
    have hwfc : wfComments s.comments = true := by
      simp only [wfStore, Bool.and_eq_true] at hws
      exact hws.1
    have hallid : ∀ x ∈ s.comments, x.id < s.nextId := by
      simp only [wfStore, Bool.and_eq_true, List.all_eq_true] at hws
      intro x hx
      exact of_decide_eq_true (hws.2 x hx)
    constructor
    · rw [hs']
    · rw [hs']
      simp only [wfStore, Bool.and_eq_true]
      constructor
      · apply wf_append s.comments cn hwfc
        · intro x hx
          rw [hid]
          exact hallid x hx
        · rcases hparshape with hn | ⟨pc, hpcm, hps⟩
          · rw [hn]
          · rw [hps]
            have hlt := hallid pc hpcm
            rw [hid]
            exact decide_eq_true hlt
      · rw [List.all_append]
        simp only [Bool.and_eq_true]
        constructor
        · rw [List.all_eq_true]
          intro x hx
          have := hallid x hx
          exact decide_eq_true (by omega)
        · simp only [List.all_cons, List.all_nil, Bool.and_true]
          exact decide_eq_true (by omega)

theorem replies_insertion_order_witness :
    (serialize exStore exC1).replies = (childrenOf exStore exC1.id).map (serialize exStore)
    ∧ List.Pairwise (fun x y => x.nid < y.nid) (serialize exStore exC1).replies
    ∧ (∀ (u : Nat) (inp : CommentInput) (s' : Store) (cn : Comment),
        wfStore exStore = true → createComment exStore u inp = Except.ok (s', cn) →
        s'.comments = exStore.comments ++ [cn] ∧ wfStore s' = true) :=
  replies_insertion_order exStore (by decide) exC1 (by decide)

/-- C6: the serializer resolves `parent` against `Comment.objects.all()`
with no same-post check: a create request whose `parent` is an existing
comment of a *different* post than the resolved `post` passes
validation and creates the comment (the open integrity gap). -/
theorem cross_post_parent_accepted (s : Store) (u : Nat) (inp : CommentInput)
    (p : Post) (pc : Comment) (pid : Nat) (body : String)
    (hp : findPostByTitle s inp.post = some p)
    (hcont : inp.content = some body) (hb : body ≠ "")
    (hpar : inp.parent = some pid)
    (hpc : findComment s pid = some pc)
    (hdiff : pc.post ≠ p.id) :
    ∃ s' cn, createComment s u inp = Except.ok (s', cn)
      ∧ cn.parent = some pc.id ∧ cn.post = p.id ∧ cn.post ≠ pc.post := by
  unfold createComment
  simp only [hp, hcont, hpar, hpc, if_neg hb]
  refine ⟨_, _, rfl, rfl, rfl, ?_⟩
  exact fun h => hdiff h.symm

/-- Two posts and a comment on the first, to witness the cross-post
parent gap: a reply on "Second" whose parent lives on "First". -/
def exPostA : Post := ⟨1, "First", "a", none, [], 0, 0, 1⟩

def exPostB : Post := ⟨2, "Second", "b", none, [], 0, 0, 1⟩

def exCross : Comment := ⟨1, 1, "on first", 1, none, 1, 1⟩

def exStore2 : Store := ⟨[exUser], [], [], [exPostA, exPostB], [exCross], 3, 3⟩

theorem cross_post_parent_accepted_witness :
    ∃ s' cn, createComment exStore2 1
        { post := "Second", content := some "cross-post reply",
          parent := some 1, author := none }
        = Except.ok (s', cn)
      ∧ cn.parent = some exCross.id ∧ cn.post = exPostB.id
      ∧ cn.post ≠ exCross.post :=
  cross_post_parent_accepted exStore2 1
    { post := "Second", content := some "cross-post reply",
      parent := some 1, author := none }
    exPostB exCross 1 "cross-post reply"
    (by decide) (by decide) (by decide) (by decide) (by decide) (by decide)

/-- C7: comment creation fails as a validation error — the `invalid`
outcome, a client error distinct from success, and the request leaves
the store unchanged (no comment row is created) — whenever the given
post title resolves to no post, or the given parent id resolves to no
comment, or the content is missing or empty. -/
theorem create_comment_validation (s : Store) (u : Nat) (inp : CommentInput)
    (h : (∀ p ∈ s.posts, p.title ≠ inp.post)
       ∨ (inp.content = none ∨ inp.content = some "")
       ∨ (∃ pid, inp.parent = some pid ∧ ∀ x ∈ s.comments, x.id ≠ pid)) :
    createCommentE s (some u) inp = (Outcome.invalid, s) := by
  have herr : ∃ e, createComment s u inp = .error e := by
    rcases h with h1 | h2 | h3
    · have hfp : findPostByTitle s inp.post = none := by
        rw [findPostByTitle, List.find?_eq_none]
        intro x hx
        simp [h1 x hx]
      exact ⟨.unknownPost, by simp [createComment, hfp]⟩
    · cases hfp : findPostByTitle s inp.post with
      | none => exact ⟨.unknownPost, by simp [createComment, hfp]⟩
      | some p =>
        rcases h2 with hn | he
        · exact ⟨.missingContent, by simp [createComment, hfp, hn]⟩
        · exact ⟨.missingContent, by simp [createComment, hfp, he]⟩
    · obtain ⟨pid, hpar, hnopc⟩ := h3
      have hfc : findComment s pid = none := by
        rw [findComment, List.find?_eq_none]
        intro x hx
        simp [hnopc x hx]
      cases hfp : findPostByTitle s inp.post with
      | none => exact ⟨.unknownPost, by simp [createComment, hfp]⟩
      | some p =>
        cases hct : inp.content with
        | none => exact ⟨.missingContent, by simp [createComment, hfp, hct]⟩
        | some body =>
          by_cases hb : body = ""
          · exact ⟨.missingContent, by simp [createComment, hfp, hct, hb]⟩
          · exact ⟨.unknownParent, by simp [createComment, hfp, hct, hb, hpar, hfc]⟩
  obtain ⟨e, he⟩ := herr
  simp [createCommentE, checkPermissions, permission_classes, runPermission,
    has_permission, SAFE_METHODS, he]

theorem create_comment_validation_witness :
    createCommentE exStore (some 1)
        { post := "No such post", content := some "x", parent := none, author := none }
      = (Outcome.invalid, exStore) :=
  create_comment_validation exStore 1
    { post := "No such post", content := some "x", parent := none, author := none }
    (Or.inl (by decide))
